import Mathlib

/-!
# Verification of `simple-vector/simple_vector.h`

A shallow embedding of the C++ dynamic-array container `SimpleVector<Type>`
and its free comparison operators, together with proofs of the specified
properties.

The container stores its elements in an `ArrayPtr<Type>` buffer
(`array_ptr.h`, the "Owned Buffer" of the design).  That header is not part
of the sources here; its behaviour (allocation value-initialises every slot,
move transfer leaves the source empty) is modelled from the specification
where it matters and noted at each such definition.

Modelling conventions:
* the buffer is a `List α` whose length is the capacity; `default` (from
  `Inhabited α`) plays the role of a value-initialised `Type()` slot;
* iterators are positions: an iterator argument `pos` of the C++ code
  becomes the index `std::distance(cbegin(), pos)`;
* `std::move_backward`, `std::move` and
  `std::uninitialized_value_construct` are embedded as the element-by-element
  loops they are specified to perform, acting on buffer indices;
* operations that can throw `std::bad_alloc` get an `E`-variant taking an
  allocation oracle `alloc : Nat → Bool`; the result pairs a "did it throw"
  flag with the state of the object at the moment the exception escapes.
-/

set_option autoImplicit false
set_option linter.unusedSectionVars false

namespace SimpleVec

variable {α : Type} [Inhabited α]

/-- The state of a `SimpleVector<Type>`: the owned buffer (one entry per
allocated slot, so `items.length` is the physical buffer length), the
logical size `size_` and the bookkept capacity `capacity_`. -/
structure SimpleVector (α : Type) where
  items : List α
  size : Nat
  capacity : Nat
  deriving Repr, DecidableEq

/-- Well-formedness: the bookkept capacity matches the buffer, and
`0 ≤ size ≤ capacity` (the container's stated invariant; the lower bound is
automatic for `Nat`). -/
def WF (v : SimpleVector α) : Prop :=
  v.items.length = v.capacity ∧ v.size ≤ v.capacity

instance (v : SimpleVector α) : Decidable (WF v) := by
  unfold WF; infer_instance

/-- Modelled from the spec: `ArrayPtr<Type>` allocation of `n` slots
value-initialises every slot (`array_ptr.h` is not in the sources; §3 of
the design: "created with a requested capacity ... value-initializing
every slot"). -/
def alloc (α : Type) [Inhabited α] (n : Nat) : List α :=
  List.replicate n default

/-- Default construction `SimpleVector() noexcept = default;` — null buffer, `size_ = 0`,
`capacity_ = 0`. -/
def mk0 : SimpleVector α := ⟨[], 0, 0⟩

/-- The logical element sequence: the slots `[0, size)` of the buffer. -/
def elems (v : SimpleVector α) : List α :=
  v.items.take v.size

/-- The subscript `operator[]`: unchecked access to slot `index` of the buffer. -/
def getIdx (v : SimpleVector α) (index : Nat) : α :=
  v.items.getD index default

/-- Embedding of `std::move_backward(begin() + first, begin() + last, begin() + dlast)`
as its loop: `while (first != last) *(--d_last) = std::move(*(--last));`
acting on buffer positions. -/
def moveBackward (l : List α) (first last dlast : Nat) : List α :=
  if first < last then
    moveBackward (l.set (dlast - 1) (l.getD (last - 1) default)) first (last - 1) (dlast - 1)
  else l
termination_by last

/-- Embedding of `std::move(begin() + first, begin() + last, begin() + dfirst)` as its
loop: `while (first != last) *d_first++ = std::move(*first++);`. -/
def moveFwd (l : List α) (first last dfirst : Nat) : List α :=
  if first < last then
    moveFwd (l.set dfirst (l.getD first default)) (first + 1) last (dfirst + 1)
  else l
termination_by last - first

/-- Embedding of `std::uninitialized_value_construct(begin() + first, begin() + last)`:
value-initialises the slots `[first, last)`. -/
def valueConstruct (l : List α) (first last : Nat) : List α :=
  if first < last then
    valueConstruct (l.set first default) (first + 1) last
  else l
termination_by last - first

/-- Embedding of `std::move(src + first, src + last, dst + dfirst)` between two distinct
buffers, as its loop: `while (first != last) *d_first++ = std::move(*first++);`
(also embeds `std::copy` between distinct buffers, which performs the same
element-wise transfer). -/
def copyInto (src : List α) (dst : List α) (first last dfirst : Nat) : List α :=
  if first < last then
    copyInto src (dst.set dfirst (src.getD first default)) (first + 1) last (dfirst + 1)
  else dst
termination_by last - first

/-- Member `SimpleVector::Reserve(new_capacity)`: if `new_capacity > capacity_`,
allocate a fresh buffer, `std::move(begin(), end(), new_items.Get())` the
`size_` live elements into it, swap it in and set `capacity_`. -/
def Reserve (v : SimpleVector α) (new_capacity : Nat) : SimpleVector α :=
  if new_capacity > v.capacity then
    { items := copyInto v.items (alloc α new_capacity) 0 v.size 0,
      size := v.size, capacity := new_capacity }
  else v

/-- The implicit growth request of `PushBack`/`Insert` when full:
`capacity_ == 0 ? 1 : capacity_ * 2`. -/
def growTarget (capacity : Nat) : Nat :=
  if capacity == 0 then 1 else capacity * 2

/-- The guarded growth step shared by `PushBack` and `Insert`:
`if (size_ == capacity_) Reserve(capacity_ == 0 ? 1 : capacity_ * 2);`. -/
def growIfFull (v : SimpleVector α) : SimpleVector α :=
  if v.size == v.capacity then Reserve v (growTarget v.capacity) else v

/-- Member `SimpleVector::PushBack(item)`: grow (per `growTarget`) when full, then
`items_[size_] = item; ++size_;`. -/
def PushBack (v : SimpleVector α) (item : α) : SimpleVector α :=
  let w := growIfFull v
  { items := w.items.set w.size item, size := w.size + 1, capacity := w.capacity }

/-- Member `SimpleVector::Insert(pos, value)` with `index = distance(cbegin(), pos)`:
grow when full, `std::move_backward(begin() + index, end(), end() + 1)`,
`items_[index] = value; ++size_;`.  The returned iterator `begin() + index`
is the position `index`, so the function returns the new state together with
that index. -/
def Insert (v : SimpleVector α) (index : Nat) (value : α) : SimpleVector α × Nat :=
  let w := growIfFull v
  ({ items := (moveBackward w.items index w.size (w.size + 1)).set index value,
     size := w.size + 1, capacity := w.capacity }, index)

/-- Member `SimpleVector::Erase(pos)` with `index = distance(cbegin(), pos)`:
`std::move(begin() + index + 1, end(), begin() + index); --size_;` and the
returned iterator `items_.Get() + index` is the position `index`. -/
def Erase (v : SimpleVector α) (index : Nat) : SimpleVector α × Nat :=
  ({ items := moveFwd v.items (index + 1) v.size index,
     size := v.size - 1, capacity := v.capacity }, index)

/-- The guarded growth step inside `Resize`:
`if (new_size > capacity_) Reserve(new_size);`. -/
def reserveIfNeeded (v : SimpleVector α) (new_size : Nat) : SimpleVector α :=
  if new_size > v.capacity then Reserve v new_size else v

/-- Member `SimpleVector::Resize(new_size)`: shrink just lowers `size_`; growth
reserves when `new_size > capacity_`, then value-constructs the slots
`[size_, new_size)` (`std::uninitialized_value_construct(end(), begin() + new_size)`)
and sets `size_`. -/
def Resize (v : SimpleVector α) (new_size : Nat) : SimpleVector α :=
  if new_size ≤ v.size then
    { v with size := new_size }
  else
    let w := reserveIfNeeded v new_size
    { items := valueConstruct w.items w.size new_size,
      size := new_size, capacity := w.capacity }

/-- Member `SimpleVector::PopBack() noexcept`: `size_ -= (size_ ? 1 : 0);`. -/
def PopBack (v : SimpleVector α) : SimpleVector α :=
  { v with size := v.size - (if v.size ≠ 0 then 1 else 0) }

/-- Member `SimpleVector::Clear() noexcept`: `size_ = 0;`. -/
def Clear (v : SimpleVector α) : SimpleVector α :=
  { v with size := 0 }

/-- Member `SimpleVector::At(index)`: `if (index >= size_) throw std::out_of_range`,
else return `items_[index]`.  `.error ()` is the thrown exception. -/
def At (v : SimpleVector α) (index : Nat) : Except Unit α :=
  if index ≥ v.size then .error () else .ok (v.items.getD index default)

/-- The copy constructor `SimpleVector(const SimpleVector&)`: allocates a
buffer of `other.capacity_`, `std::copy`s the `other.size_` live elements
into it, and adopts `other`'s counters. -/
def copyCtor (other : SimpleVector α) : SimpleVector α :=
  { items := copyInto other.items (alloc α other.capacity) 0 other.size 0,
    size := other.size, capacity := other.capacity }

/-- The move constructor `SimpleVector(SimpleVector&&)`: takes the buffer
(`items_(std::move(other.items_))`; modelled from the spec for
`array_ptr.h`: Owned-Buffer move-transfer leaves the source null) and the
counters, then zeroes the source's counters.  Returns
(destination, state of the source afterwards). -/
def moveCtor (other : SimpleVector α) : SimpleVector α × SimpleVector α :=
  (⟨other.items, other.size, other.capacity⟩, ⟨[], 0, 0⟩)

/-- Move assignment `operator=(SimpleVector&&)` for a destination distinct
from the source (`this != &other`): the destination takes the buffer
(modelled from the spec for `array_ptr.h`: Owned-Buffer move-assign
transfers ownership, source becomes null) and the counters; the source's
counters are zeroed.  Returns (destination, source afterwards). -/
def moveAssign (_dst other : SimpleVector α) : SimpleVector α × SimpleVector α :=
  (⟨other.items, other.size, other.capacity⟩, ⟨[], 0, 0⟩)

/-- Embedding of `std::fill(first, last, value)` over buffer positions
`[first, last)`, as its loop assigning `value` to every slot of the range. -/
def fillVal (l : List α) (first last : Nat) (value : α) : List α :=
  if first < last then
    fillVal (l.set first value) (first + 1) last value
  else l
termination_by last - first

/-- The sized constructor `SimpleVector(size_t size)`: `size_ = capacity_ =
size`, a fresh buffer of `capacity_` slots, `std::fill(get, get + size,
Type())` over the live range, buffer swapped in. -/
def mkSized (n : Nat) : SimpleVector α :=
  { items := fillVal (alloc α n) 0 n default, size := n, capacity := n }

/-- The fill constructor `SimpleVector(size_t size, const Type& value)`:
like `mkSized` but the live range is filled with `value`. -/
def mkFill (n : Nat) (value : α) : SimpleVector α :=
  { items := fillVal (alloc α n) 0 n value, size := n, capacity := n }

/-- The initializer-list constructor `SimpleVector(std::initializer_list)`:
a fresh buffer of `init.size()` slots, the list copied in
(`std::copy(init.begin(), init.end(), new_items.Get())`), and
`size_ = capacity_ = init.size()`. -/
def mkInitList (xs : List α) : SimpleVector α :=
  { items := copyInto xs (alloc α xs.length) 0 xs.length 0,
    size := xs.length, capacity := xs.length }

/-- The capacity-reservation constructor `SimpleVector(ReserveProxyObj obj)`:
a fresh buffer of `obj.capacity_to_reserve_` slots, filled with `Type()`
over the whole buffer, `capacity_` set to the hint, `size_` left `0`. -/
def mkReserveHint (n : Nat) : SimpleVector α :=
  { items := fillVal (alloc α n) 0 n default, size := 0, capacity := n }

/-- Copy assignment `operator=(const SimpleVector&)` for a destination
distinct from the source (`this != &rhs`): a fresh buffer of
`rhs.capacity_`, the `rhs.size_` live elements copied in, swapped into
place, and the counters adopted; the destination's old state is discarded. -/
def copyAssign (_dst other : SimpleVector α) : SimpleVector α :=
  { items := copyInto other.items (alloc α other.capacity) 0 other.size 0,
    size := other.size, capacity := other.capacity }

/-- Member `swap(other) noexcept`: exchanges the buffers (`items_.swap`),
the sizes and the capacities.  Returns (state of `this`, state of `other`)
afterwards. -/
def swap (a b : SimpleVector α) : SimpleVector α × SimpleVector α :=
  (⟨b.items, b.size, b.capacity⟩, ⟨a.items, a.size, a.capacity⟩)

/-- Embedding of `std::equal(lhs.begin(), lhs.end(), rhs.begin(), rhs.end())`: true
exactly when the two ranges have the same length and are element-wise
equal (the four-iterator overload). -/
def stdEqual [DecidableEq α] : List α → List α → Bool
  | [], [] => true
  | a :: as, b :: bs => decide (a = b) && stdEqual as bs
  | _, _ => false

/-- Free `operator==` on `SimpleVector`: `std::equal` over the two live
ranges `[begin, end)`. -/
def vecEq [DecidableEq α] (lhs rhs : SimpleVector α) : Bool :=
  stdEqual (elems lhs) (elems rhs)

/-- Embedding of `std::lexicographical_compare(first1, last1, first2, last2)` as its
loop: walk both ranges; `*first1 < *first2` decides true, `*first2 < *first1`
decides false; a range running out first decides by `first1 == last1 &&
first2 != last2`. -/
def lexLt [LT α] [DecidableRel ((· < ·) : α → α → Prop)] : List α → List α → Bool
  | _, [] => false
  | [], _ :: _ => true
  | a :: as, b :: bs =>
    if a < b then true
    else if b < a then false
    else lexLt as bs

/-- Free `operator<` on `SimpleVector`: `std::lexicographical_compare` over
the two live ranges. -/
def vecLt [LT α] [DecidableRel ((· < ·) : α → α → Prop)] (lhs rhs : SimpleVector α) : Bool :=
  lexLt (elems lhs) (elems rhs)

/-- Variant of `Reserve` with an allocation oracle `a` (`a n = false` means
`ArrayPtr<Type> new_items(n)` throws `std::bad_alloc`).  The allocation is
the first statement of the growth branch, before any member is written, so
on a throw the escaping state is the original one.  Result: (did it throw,
state of the vector when control leaves `Reserve`). -/
def ReserveE (a : Nat → Bool) (v : SimpleVector α) (new_capacity : Nat) :
    Bool × SimpleVector α :=
  if new_capacity > v.capacity then
    if a new_capacity then
      (false, { items := copyInto v.items (alloc α new_capacity) 0 v.size 0,
                size := v.size, capacity := new_capacity })
    else (true, v)
  else (false, v)

/-- Variant of `PushBack` with an allocation oracle: the only fallible step is the
`Reserve` call, which precedes both member writes; a throw there
propagates with the members untouched. -/
def PushBackE (a : Nat → Bool) (v : SimpleVector α) (item : α) :
    Bool × SimpleVector α :=
  let p := if v.size == v.capacity then ReserveE a v (growTarget v.capacity)
           else (false, v)
  if p.1 then p
  else (false, { items := p.2.items.set p.2.size item,
                 size := p.2.size + 1, capacity := p.2.capacity })

/-- Variant of `Insert` with an allocation oracle: `index` is already computed
(`std::distance` mutates nothing) when the fallible `Reserve` runs, and
the shift and writes all come after it.  Only the vector state is tracked
(the returned iterator is irrelevant to the exception behaviour). -/
def InsertE (a : Nat → Bool) (v : SimpleVector α) (index : Nat) (value : α) :
    Bool × SimpleVector α :=
  let p := if v.size == v.capacity then ReserveE a v (growTarget v.capacity)
           else (false, v)
  if p.1 then p
  else (false, { items := (moveBackward p.2.items index p.2.size (p.2.size + 1)).set index value,
                 size := p.2.size + 1, capacity := p.2.capacity })

/-- Variant of `Resize` with an allocation oracle: the shrink branch never allocates;
the growth branch's only fallible step is its `Reserve` call, which comes
before the value-construction and the `size_` write. -/
def ResizeE (a : Nat → Bool) (v : SimpleVector α) (new_size : Nat) :
    Bool × SimpleVector α :=
  if new_size ≤ v.size then (false, { v with size := new_size })
  else
    let p := if new_size > v.capacity then ReserveE a v new_size else (false, v)
    if p.1 then p
    else (false, { items := valueConstruct p.2.items p.2.size new_size,
                   size := new_size, capacity := p.2.capacity })

/-! ### Pointwise lemmas about the loop embeddings -/

theorem getD_set_self {l : List α} {i : Nat} (h : i < l.length) (a : α) :
    (l.set i a).getD i default = a := by
  simp [List.getD, List.getElem?_set, h]

theorem getD_set_ne {l : List α} {i j : Nat} (h : i ≠ j) (a : α) :
    (l.set i a).getD j default = l.getD j default := by
  simp [List.getD, List.getElem?_set, h]

theorem length_moveBackward (l : List α) (f t d : Nat) :
    (moveBackward l f t d).length = l.length := by
  generalize h : t - f = n
  induction n generalizing l t d with
  | zero =>
    rw [moveBackward]
    have : ¬ f < t := by omega
    simp [this]
  | succ n ih =>
    rw [moveBackward]
    split
    · rw [ih _ _ _ (by omega)]
      simp [List.length_set]
    · rfl

theorem length_moveFwd (l : List α) (f t d : Nat) :
    (moveFwd l f t d).length = l.length := by
  generalize h : t - f = n
  induction n generalizing l f d with
  | zero =>
    rw [moveFwd]
    have : ¬ f < t := by omega
    simp [this]
  | succ n ih =>
    rw [moveFwd]
    split
    · rw [ih _ _ _ (by omega)]
      simp [List.length_set]
    · rfl

theorem length_valueConstruct (l : List α) (f t : Nat) :
    (valueConstruct l f t).length = l.length := by
  generalize h : t - f = n
  induction n generalizing l f with
  | zero =>
    rw [valueConstruct]
    have : ¬ f < t := by omega
    simp [this]
  | succ n ih =>
    rw [valueConstruct]
    split
    · rw [ih _ _ (by omega)]
      simp [List.length_set]
    · rfl

theorem length_copyInto (src dst : List α) (f t d : Nat) :
    (copyInto src dst f t d).length = dst.length := by
  generalize h : t - f = n
  induction n generalizing dst f d with
  | zero =>
    rw [copyInto]
    have : ¬ f < t := by omega
    simp [this]
  | succ n ih =>
    rw [copyInto]
    split
    · rw [ih _ _ _ (by omega)]
      simp [List.length_set]
    · rfl

theorem length_fillVal (l : List α) (f t : Nat) (x : α) :
    (fillVal l f t x).length = l.length := by
  generalize h : t - f = n
  induction n generalizing l f with
  | zero =>
    rw [fillVal]
    have : ¬ f < t := by omega
    simp [this]
  | succ n ih =>
    rw [fillVal]
    split
    · rw [ih _ _ (by omega)]
      simp [List.length_set]
    · rfl

/-- Effect of the backward shift used by `Insert` (destination one past the
end of the shifted range): slot `k` ends with the old slot `k - 1` for
`f < k ≤ t` and is untouched otherwise. -/
theorem getD_moveBackward (l : List α) (f t k : Nat) (hf : f ≤ t) (ht : t < l.length) :
    (moveBackward l f t (t + 1)).getD k default =
      if f < k ∧ k ≤ t then l.getD (k - 1) default else l.getD k default := by
  generalize hn : t - f = n
  induction n generalizing l t with
  | zero =>
    rw [moveBackward]
    have h1 : ¬ f < t := by omega
    have h2 : ¬ (f < k ∧ k ≤ t) := by omega
    simp [h1, h2]
  | succ n ih =>
    rw [moveBackward]
    have hft : f < t := by omega
    rw [if_pos hft]
    have e2 : t - 1 + 1 = t := by omega
    simp only [Nat.add_sub_cancel]
    have hlen : t - 1 < (l.set t (l.getD (t - 1) default)).length := by
      simp [List.length_set]; omega
    have ihh := ih (l.set t (l.getD (t - 1) default)) (t - 1) (by omega) hlen (by omega)
    rw [e2] at ihh
    rw [ihh]
    by_cases hk : f < k ∧ k ≤ t - 1
    · rw [if_pos hk, if_pos (by omega)]
      exact getD_set_ne (by omega) _
    · rw [if_neg hk]
      by_cases hkt : k = t
      · subst hkt
        rw [if_pos (by omega)]
        exact getD_set_self ht _
      · rw [if_neg (by omega)]
        exact getD_set_ne (by omega) _

/-- Effect of the forward shift used by `Erase` (destination one before the
start of the shifted range): slot `k` ends with the old slot `k + 1` for
`f - 1 ≤ k < t - 1` and is untouched otherwise. -/
theorem getD_moveFwd (l : List α) (f t k : Nat) (h1 : 1 ≤ f) (ht : t ≤ l.length) :
    (moveFwd l f t (f - 1)).getD k default =
      if f ≤ k + 1 ∧ k + 1 < t then l.getD (k + 1) default else l.getD k default := by
  generalize hn : t - f = n
  induction n generalizing l f with
  | zero =>
    rw [moveFwd]
    have hft : ¬ f < t := by omega
    have h2 : ¬ (f ≤ k + 1 ∧ k + 1 < t) := by omega
    simp [hft, h2]
  | succ n ih =>
    rw [moveFwd]
    have hft : f < t := by omega
    rw [if_pos hft]
    have e1 : f - 1 + 1 = f := by omega
    have e2 : f + 1 - 1 = f := by omega
    rw [e1]
    have hlen : t ≤ (l.set (f - 1) (l.getD f default)).length := by
      simp [List.length_set]; omega
    have ihh := ih (l.set (f - 1) (l.getD f default)) (f + 1) (by omega) hlen (by omega)
    rw [e2] at ihh
    rw [ihh]
    by_cases hk : f + 1 ≤ k + 1 ∧ k + 1 < t
    · rw [if_pos hk, if_pos (by omega)]
      exact getD_set_ne (by omega) _
    · rw [if_neg hk]
      by_cases hkf : k = f - 1
      · subst hkf
        rw [if_pos (by omega)]
        have : f - 1 + 1 = f := by omega
        rw [this]
        exact getD_set_self (by omega) _
      · rw [if_neg (by omega)]
        exact getD_set_ne (by omega) _

/-- Effect of value-construction over `[f, t)`: those slots become the
value-initialised `default`, the rest are untouched. -/
theorem getD_valueConstruct (l : List α) (f t k : Nat) (ht : t ≤ l.length) :
    (valueConstruct l f t).getD k default =
      if f ≤ k ∧ k < t then default else l.getD k default := by
  generalize hn : t - f = n
  induction n generalizing l f with
  | zero =>
    rw [valueConstruct]
    have hft : ¬ f < t := by omega
    have h2 : ¬ (f ≤ k ∧ k < t) := by omega
    simp [hft, h2]
  | succ n ih =>
    rw [valueConstruct]
    have hft : f < t := by omega
    rw [if_pos hft]
    have hlen : t ≤ (l.set f default).length := by
      simp [List.length_set]; omega
    rw [ih _ _ hlen (by omega)]
    by_cases hk : f + 1 ≤ k ∧ k < t
    · rw [if_pos hk]
      rw [if_pos (by omega : f ≤ k ∧ k < t)]
    · rw [if_neg hk]
      by_cases hkf : k = f
      · subst hkf
        rw [if_pos (by omega)]
        exact getD_set_self (by omega) _
      · rw [if_neg (by omega)]
        exact getD_set_ne (by omega) _

/-- Effect of the cross-buffer element transfer over `[f, t)` (same index in
source and destination): those destination slots receive the source's
elements, the rest keep the destination's. -/
theorem getD_copyInto (src dst : List α) (f t k : Nat) (ht : t ≤ dst.length) :
    (copyInto src dst f t f).getD k default =
      if f ≤ k ∧ k < t then src.getD k default else dst.getD k default := by
  generalize hn : t - f = n
  induction n generalizing dst f with
  | zero =>
    rw [copyInto]
    have hft : ¬ f < t := by omega
    have h2 : ¬ (f ≤ k ∧ k < t) := by omega
    simp [hft, h2]
  | succ n ih =>
    rw [copyInto]
    have hft : f < t := by omega
    rw [if_pos hft]
    have hlen : t ≤ (dst.set f (src.getD f default)).length := by
      simp [List.length_set]; omega
    rw [ih _ _ hlen (by omega)]
    by_cases hk : f + 1 ≤ k ∧ k < t
    · rw [if_pos hk]
      rw [if_pos (by omega : f ≤ k ∧ k < t)]
    · rw [if_neg hk]
      by_cases hkf : k = f
      · subst hkf
        rw [if_pos (by omega)]
        exact getD_set_self (by omega) _
      · rw [if_neg (by omega)]
        exact getD_set_ne (by omega) _

/-! ### Generic list helpers -/

theorem eq_of_getD {l1 l2 : List α} (hlen : l1.length = l2.length)
    (h : ∀ k, k < l1.length → l1.getD k default = l2.getD k default) : l1 = l2 := by
  refine List.ext_getElem hlen ?_
  intro i h1 h2
  have := h i h1
  rwa [List.getD_eq_getElem _ _ h1, List.getD_eq_getElem _ _ h2] at this

theorem getD_take {l : List α} {n k : Nat} (h : k < n) :
    (l.take n).getD k default = l.getD k default := by
  simp [List.getD, List.getElem?_take, h]

theorem getD_append_left {l1 l2 : List α} {k : Nat} (h : k < l1.length) :
    (l1 ++ l2).getD k default = l1.getD k default := by
  simp [List.getD, List.getElem?_append, h]

theorem getD_append_right {l1 l2 : List α} {k : Nat} (h : l1.length ≤ k) :
    (l1 ++ l2).getD k default = l2.getD (k - l1.length) default := by
  simp [List.getD, List.getElem?_append_right, h]

theorem getD_drop {l : List α} {n k : Nat} :
    (l.drop n).getD k default = l.getD (n + k) default := by
  simp [List.getD, List.getElem?_drop]

theorem getD_replicate {n k : Nat} (h : k < n) :
    (List.replicate n (default : α)).getD k default = default := by
  simp [List.getD, List.getElem?_replicate, h]

/-! ### Basic facts about the operations -/

theorem length_alloc (n : Nat) : (alloc α n).length = n := by
  simp [alloc]

theorem length_elems {v : SimpleVector α} (h : WF v) : (elems v).length = v.size := by
  obtain ⟨h1, h2⟩ := h
  simp [elems, List.length_take]
  omega

theorem getD_elems {v : SimpleVector α} {k : Nat} (h : k < v.size) :
    (elems v).getD k default = v.items.getD k default := by
  unfold elems
  exact getD_take h

theorem Reserve_size (v : SimpleVector α) (n : Nat) : (Reserve v n).size = v.size := by
  unfold Reserve
  split <;> rfl

theorem Reserve_capacity (v : SimpleVector α) (n : Nat) :
    (Reserve v n).capacity = if v.capacity < n then n else v.capacity := by
  unfold Reserve
  split <;> simp_all

theorem Reserve_capacity_of_gt {v : SimpleVector α} {n : Nat} (h : v.capacity < n) :
    (Reserve v n).capacity = n := by
  rw [Reserve_capacity, if_pos h]

theorem WF_Reserve {v : SimpleVector α} (h : WF v) (n : Nat) : WF (Reserve v n) := by
  obtain ⟨h1, h2⟩ := h
  unfold Reserve
  split
  · constructor
    · simp [length_copyInto, length_alloc]
    · simp; omega
  · exact ⟨h1, h2⟩

theorem elems_Reserve {v : SimpleVector α} (h : WF v) (n : Nat) :
    elems (Reserve v n) = elems v := by
  obtain ⟨h1, h2⟩ := h
  unfold Reserve
  split
  · rename_i hgt
    show (copyInto v.items (alloc α n) 0 v.size 0).take v.size = elems v
    refine eq_of_getD ?_ ?_
    · simp [elems, List.length_take, length_copyInto, length_alloc]
      omega
    · intro k hk
      have hk' : k < v.size := by
        simp [List.length_take, length_copyInto, length_alloc] at hk
        omega
      rw [getD_take hk', getD_elems hk']
      rw [getD_copyInto _ _ _ _ _ (by rw [length_alloc]; omega)]
      rw [if_pos ⟨Nat.zero_le k, hk'⟩]
  · rfl

theorem growTarget_eq_max (c : Nat) : growTarget c = max 1 (c * 2) := by
  unfold growTarget
  by_cases h : c = 0 <;> simp [h] <;> omega

theorem lt_growTarget (c : Nat) : c < growTarget c := by
  unfold growTarget
  by_cases h : c = 0 <;> simp [h] <;> omega

theorem growIfFull_size (v : SimpleVector α) : (growIfFull v).size = v.size := by
  unfold growIfFull
  split
  · exact Reserve_size v _
  · rfl

theorem growIfFull_capacity (v : SimpleVector α) :
    (growIfFull v).capacity =
      if v.size = v.capacity then growTarget v.capacity else v.capacity := by
  unfold growIfFull
  by_cases h : v.size = v.capacity
  · simp only [h]
    simp [Reserve_capacity_of_gt (lt_growTarget v.capacity)]
  · simp [h]

theorem size_lt_capacity_growIfFull {v : SimpleVector α} (h : WF v) :
    v.size < (growIfFull v).capacity := by
  rw [growIfFull_capacity]
  obtain ⟨h1, h2⟩ := h
  by_cases hc : v.size = v.capacity
  · rw [if_pos hc, hc]
    exact lt_growTarget v.capacity
  · rw [if_neg hc]
    omega

theorem WF_growIfFull {v : SimpleVector α} (h : WF v) : WF (growIfFull v) := by
  unfold growIfFull
  split
  · exact WF_Reserve h _
  · exact h

theorem elems_growIfFull {v : SimpleVector α} (h : WF v) :
    elems (growIfFull v) = elems v := by
  unfold growIfFull
  split
  · exact elems_Reserve h _
  · rfl

theorem getD_growIfFull {v : SimpleVector α} (h : WF v) {k : Nat} (hk : k < v.size) :
    (growIfFull v).items.getD k default = v.items.getD k default := by
  have h1 := elems_growIfFull h
  have h2 : k < (growIfFull v).size := by rw [growIfFull_size]; exact hk
  rw [← getD_elems h2, h1, getD_elems hk]

theorem reserveIfNeeded_size (v : SimpleVector α) (n : Nat) :
    (reserveIfNeeded v n).size = v.size := by
  unfold reserveIfNeeded
  split
  · exact Reserve_size v n
  · rfl

theorem reserveIfNeeded_capacity (v : SimpleVector α) (n : Nat) :
    (reserveIfNeeded v n).capacity = if v.capacity < n then n else v.capacity := by
  unfold reserveIfNeeded
  split
  · rename_i hgt
    exact Reserve_capacity_of_gt hgt
  · rfl

theorem WF_reserveIfNeeded {v : SimpleVector α} (h : WF v) (n : Nat) :
    WF (reserveIfNeeded v n) := by
  unfold reserveIfNeeded
  split
  · exact WF_Reserve h n
  · exact h

theorem elems_reserveIfNeeded {v : SimpleVector α} (h : WF v) (n : Nat) :
    elems (reserveIfNeeded v n) = elems v := by
  unfold reserveIfNeeded
  split
  · exact elems_Reserve h n
  · rfl

theorem getD_reserveIfNeeded {v : SimpleVector α} (h : WF v) {n k : Nat} (hk : k < v.size) :
    (reserveIfNeeded v n).items.getD k default = v.items.getD k default := by
  have h1 := elems_reserveIfNeeded h n
  have h2 : k < (reserveIfNeeded v n).size := by rw [reserveIfNeeded_size]; exact hk
  rw [← getD_elems h2, h1, getD_elems hk]

theorem PushBack_size (v : SimpleVector α) (x : α) :
    (PushBack v x).size = v.size + 1 := by
  show (growIfFull v).size + 1 = v.size + 1
  rw [growIfFull_size]

theorem PushBack_capacity (v : SimpleVector α) (x : α) :
    (PushBack v x).capacity =
      if v.size = v.capacity then growTarget v.capacity else v.capacity := by
  show (growIfFull v).capacity = _
  exact growIfFull_capacity v

theorem length_items_PushBack (v : SimpleVector α) (x : α) :
    (PushBack v x).items.length = (growIfFull v).items.length := by
  show ((growIfFull v).items.set _ _).length = _
  rw [List.length_set]

theorem WF_PushBack {v : SimpleVector α} (h : WF v) (x : α) : WF (PushBack v x) := by
  have hw := WF_growIfFull h
  have hlt := size_lt_capacity_growIfFull h
  have hs := growIfFull_size v
  constructor
  · rw [length_items_PushBack, PushBack_capacity, hw.1, growIfFull_capacity]
  · rw [PushBack_size, PushBack_capacity, ← growIfFull_capacity]
    omega

theorem elems_PushBack {v : SimpleVector α} (h : WF v) (x : α) :
    elems (PushBack v x) = elems v ++ [x] := by
  have hw := WF_growIfFull h
  have hlt : v.size < (growIfFull v).items.length := by
    rw [hw.1]; exact size_lt_capacity_growIfFull h
  have hs := growIfFull_size v
  show ((growIfFull v).items.set (growIfFull v).size x).take ((growIfFull v).size + 1)
      = elems v ++ [x]
  refine eq_of_getD ?_ ?_
  · rw [List.length_take, List.length_set, List.length_append, length_elems h, hs]
    simp
    omega
  · intro k hk
    have hk' : k < v.size + 1 := by
      simp [List.length_take, List.length_set] at hk
      omega
    rw [getD_take (by omega)]
    by_cases hke : k = v.size
    · subst hke
      rw [hs]
      rw [getD_set_self hlt]
      rw [getD_append_right (by rw [length_elems h])]
      rw [length_elems h]
      simp
    · have hklt : k < v.size := by omega
      rw [hs]
      rw [getD_set_ne (by omega)]
      rw [getD_append_left (by rw [length_elems h]; omega)]
      rw [getD_elems hklt]
      exact getD_growIfFull h hklt

theorem Insert_snd (v : SimpleVector α) (i : Nat) (x : α) : (Insert v i x).2 = i := rfl

theorem Insert_size (v : SimpleVector α) (i : Nat) (x : α) :
    (Insert v i x).1.size = v.size + 1 := by
  show (growIfFull v).size + 1 = v.size + 1
  rw [growIfFull_size]

theorem Insert_capacity (v : SimpleVector α) (i : Nat) (x : α) :
    (Insert v i x).1.capacity =
      if v.size = v.capacity then growTarget v.capacity else v.capacity := by
  show (growIfFull v).capacity = _
  exact growIfFull_capacity v

theorem length_items_Insert (v : SimpleVector α) (i : Nat) (x : α) :
    (Insert v i x).1.items.length = (growIfFull v).items.length := by
  show ((moveBackward _ _ _ _).set _ _).length = _
  rw [List.length_set, length_moveBackward]

theorem WF_Insert {v : SimpleVector α} (h : WF v) (i : Nat) (x : α) :
    WF (Insert v i x).1 := by
  have hw := WF_growIfFull h
  have hlt := size_lt_capacity_growIfFull h
  constructor
  · rw [length_items_Insert, Insert_capacity, hw.1, growIfFull_capacity]
  · rw [Insert_size, Insert_capacity, ← growIfFull_capacity]
    omega

theorem elems_Insert {v : SimpleVector α} (h : WF v) {i : Nat} (hi : i ≤ v.size) (x : α) :
    elems (Insert v i x).1 = (elems v).take i ++ x :: (elems v).drop i := by
  have hw := WF_growIfFull h
  have hlt : (growIfFull v).size < (growIfFull v).items.length := by
    rw [hw.1, growIfFull_size]
    exact size_lt_capacity_growIfFull h
  have hs := growIfFull_size v
  have hlen_e : (elems v).length = v.size := length_elems h
  show ((moveBackward (growIfFull v).items i (growIfFull v).size ((growIfFull v).size + 1)).set i x).take
        ((growIfFull v).size + 1)
      = (elems v).take i ++ x :: (elems v).drop i
  have hlen_take : ((elems v).take i).length = i := by
    rw [List.length_take, hlen_e]
    omega
  refine eq_of_getD ?_ ?_
  · rw [List.length_take, List.length_set, length_moveBackward]
    simp [List.length_append, hlen_take, List.length_drop, hlen_e]
    omega
  · intro k hk
    have hk' : k < v.size + 1 := by
      simp [List.length_take, List.length_set, length_moveBackward] at hk
      omega
    rw [getD_take (by omega)]
    by_cases hke : k = i
    · subst hke
      have : k < ((moveBackward (growIfFull v).items k (growIfFull v).size
          ((growIfFull v).size + 1))).length := by
        rw [length_moveBackward]
        omega
      rw [getD_set_self this]
      rw [getD_append_right (by omega)]
      rw [hlen_take]
      simp
    · rw [getD_set_ne (by omega)]
      rw [getD_moveBackward _ _ _ _ (by omega) (by omega)]
      by_cases hklt : k < i
      · rw [if_neg (by omega)]
        rw [getD_append_left (by omega)]
        rw [getD_take (by omega), getD_elems (by omega)]
        exact getD_growIfFull h (by omega)
      · have hik : i < k := by omega
        have hks : k ≤ v.size := by omega
        rw [if_pos (by omega : i < k ∧ k ≤ (growIfFull v).size)]
        rw [getD_append_right (by omega)]
        rw [hlen_take]
        have : k - i = (k - i - 1) + 1 := by omega
        rw [this]
        show (growIfFull v).items.getD (k - 1) default
            = ((elems v).drop i).getD (k - i - 1) default
        rw [getD_drop]
        have : i + (k - i - 1) = k - 1 := by omega
        rw [this]
        rw [getD_elems (by omega)]
        exact getD_growIfFull h (by omega)

theorem Erase_snd (v : SimpleVector α) (i : Nat) : (Erase v i).2 = i := rfl

theorem Erase_size (v : SimpleVector α) (i : Nat) : (Erase v i).1.size = v.size - 1 := rfl

theorem Erase_capacity (v : SimpleVector α) (i : Nat) :
    (Erase v i).1.capacity = v.capacity := rfl

theorem WF_Erase {v : SimpleVector α} (h : WF v) (i : Nat) : WF (Erase v i).1 := by
  obtain ⟨h1, h2⟩ := h
  constructor
  · show (moveFwd v.items (i + 1) v.size i).length = v.capacity
    rw [length_moveFwd, h1]
  · show v.size - 1 ≤ v.capacity
    omega

theorem elems_Erase {v : SimpleVector α} (h : WF v) {i : Nat} (hi : i < v.size) :
    elems (Erase v i).1 = (elems v).take i ++ (elems v).drop (i + 1) := by
  obtain ⟨h1, h2⟩ := h
  have hlen_e : (elems v).length = v.size := length_elems ⟨h1, h2⟩
  show (moveFwd v.items (i + 1) v.size ((i + 1) - 1)).take (v.size - 1)
      = (elems v).take i ++ (elems v).drop (i + 1)
  have hlen_take : ((elems v).take i).length = i := by
    rw [List.length_take, hlen_e]
    omega
  refine eq_of_getD ?_ ?_
  · rw [List.length_take, length_moveFwd]
    simp [List.length_append, hlen_take, List.length_drop, hlen_e]
    omega
  · intro k hk
    have hk' : k < v.size - 1 := by
      simp [List.length_take, length_moveFwd] at hk
      omega
    rw [getD_take (by omega)]
    rw [getD_moveFwd _ _ _ _ (by omega) (by omega)]
    by_cases hklt : k < i
    · rw [if_neg (by omega)]
      rw [getD_append_left (by omega)]
      rw [getD_take (by omega), getD_elems (by omega)]
    · rw [if_pos (by omega : i + 1 ≤ k + 1 ∧ k + 1 < v.size)]
      rw [getD_append_right (by omega)]
      rw [hlen_take, getD_drop]
      have : i + 1 + (k - i) = k + 1 := by omega
      rw [this]
      rw [getD_elems (by omega)]

theorem Resize_shrink {v : SimpleVector α} {n : Nat} (hn : n ≤ v.size) :
    Resize v n = { v with size := n } := by
  unfold Resize
  rw [if_pos hn]

theorem Resize_size {v : SimpleVector α} (n : Nat) : (Resize v n).size = n := by
  unfold Resize
  split
  · rfl
  · rfl

theorem Resize_capacity {v : SimpleVector α} (h : WF v) (n : Nat) :
    (Resize v n).capacity = if v.capacity < n then n else v.capacity := by
  obtain ⟨h1, h2⟩ := h
  unfold Resize
  split
  · rename_i hle
    rw [if_neg (by omega)]
  · show (reserveIfNeeded v n).capacity = _
    exact reserveIfNeeded_capacity v n

theorem WF_Resize {v : SimpleVector α} (h : WF v) (n : Nat) : WF (Resize v n) := by
  have hw := WF_reserveIfNeeded h n
  obtain ⟨h1, h2⟩ := h
  unfold Resize
  split
  · exact ⟨h1, by show n ≤ v.capacity; omega⟩
  · rename_i hgt
    refine ⟨?_, ?_⟩
    · show (valueConstruct (reserveIfNeeded v n).items (reserveIfNeeded v n).size n).length
          = (reserveIfNeeded v n).capacity
      rw [length_valueConstruct, hw.1]
    · show n ≤ (reserveIfNeeded v n).capacity
      rw [reserveIfNeeded_capacity]
      split
      · exact Nat.le_refl n
      · omega

theorem elems_Resize_up {v : SimpleVector α} (h : WF v) {n : Nat} (hn : v.size < n) :
    elems (Resize v n) = elems v ++ List.replicate (n - v.size) default := by
  obtain ⟨h1, h2⟩ := h
  have hlen_e : (elems v).length = v.size := length_elems ⟨h1, h2⟩
  unfold Resize
  rw [if_neg (by omega)]
  have hw : WF (reserveIfNeeded v n) := WF_reserveIfNeeded ⟨h1, h2⟩ n
  have hws : (reserveIfNeeded v n).size = v.size := reserveIfNeeded_size v n
  have hwc : n ≤ (reserveIfNeeded v n).capacity := by
    rw [reserveIfNeeded_capacity]
    split
    · exact Nat.le_refl n
    · omega
  have hwgetD : ∀ k, k < v.size →
      (reserveIfNeeded v n).items.getD k default = v.items.getD k default :=
    fun k hk => getD_reserveIfNeeded ⟨h1, h2⟩ hk
  show (valueConstruct (reserveIfNeeded v n).items (reserveIfNeeded v n).size n).take n
      = elems v ++ List.replicate (n - v.size) default
  refine eq_of_getD ?_ ?_
  · rw [List.length_take, length_valueConstruct, hw.1]
    simp [List.length_append, hlen_e, List.length_replicate]
    omega
  · intro k hk
    have hk' : k < n := by
      simp [List.length_take, length_valueConstruct] at hk
      omega
    rw [getD_take hk']
    rw [getD_valueConstruct _ _ _ _ (by rw [hw.1]; omega)]
    rw [hws]
    by_cases hks : k < v.size
    · rw [if_neg (by omega)]
      rw [getD_append_left (by omega)]
      rw [getD_elems hks]
      exact hwgetD k hks
    · rw [if_pos (by omega : v.size ≤ k ∧ k < n)]
      rw [getD_append_right (by omega)]
      rw [hlen_e]
      rw [getD_replicate (by omega)]

theorem PopBack_def (v : SimpleVector α) : PopBack v = { v with size := v.size - 1 } := by
  unfold PopBack
  by_cases h : v.size = 0
  · simp [h]
  · simp [h]

theorem WF_PopBack {v : SimpleVector α} (h : WF v) : WF (PopBack v) := by
  obtain ⟨h1, h2⟩ := h
  rw [PopBack_def]
  exact ⟨h1, by show v.size - 1 ≤ v.capacity; omega⟩

theorem WF_Clear {v : SimpleVector α} (h : WF v) : WF (Clear v) :=
  ⟨h.1, Nat.zero_le _⟩

theorem WF_mk0 : WF (mk0 : SimpleVector α) := ⟨rfl, Nat.le_refl 0⟩

theorem WF_copyCtor {v : SimpleVector α} (h : WF v) : WF (copyCtor v) := by
  obtain ⟨h1, h2⟩ := h
  refine ⟨?_, h2⟩
  show (copyInto v.items (alloc α v.capacity) 0 v.size 0).length = v.capacity
  rw [length_copyInto, length_alloc]

theorem elems_copyCtor {v : SimpleVector α} (h : WF v) : elems (copyCtor v) = elems v := by
  obtain ⟨h1, h2⟩ := h
  show (copyInto v.items (alloc α v.capacity) 0 v.size 0).take v.size = elems v
  refine eq_of_getD ?_ ?_
  · rw [List.length_take, length_copyInto, length_alloc]
    rw [length_elems ⟨h1, h2⟩]
    omega
  · intro k hk
    have hk' : k < v.size := by
      simp [List.length_take, length_copyInto, length_alloc] at hk
      omega
    rw [getD_take hk', getD_elems hk']
    rw [getD_copyInto _ _ _ _ _ (by rw [length_alloc]; omega)]
    rw [if_pos ⟨Nat.zero_le k, hk'⟩]

theorem WF_moveCtor {v : SimpleVector α} (h : WF v) :
    WF (moveCtor v).1 ∧ WF (moveCtor v).2 :=
  ⟨h, WF_mk0⟩

theorem WF_mkSized (n : Nat) : WF (mkSized (α := α) n) := by
  refine ⟨?_, Nat.le_refl n⟩
  show (fillVal (alloc α n) 0 n default).length = n
  rw [length_fillVal, length_alloc]

theorem WF_mkFill (n : Nat) (x : α) : WF (mkFill n x) := by
  refine ⟨?_, Nat.le_refl n⟩
  show (fillVal (alloc α n) 0 n x).length = n
  rw [length_fillVal, length_alloc]

theorem WF_mkInitList (xs : List α) : WF (mkInitList xs) := by
  refine ⟨?_, Nat.le_refl xs.length⟩
  show (copyInto xs (alloc α xs.length) 0 xs.length 0).length = xs.length
  rw [length_copyInto, length_alloc]

theorem WF_mkReserveHint (n : Nat) : WF (mkReserveHint (α := α) n) := by
  refine ⟨?_, Nat.zero_le n⟩
  show (fillVal (alloc α n) 0 n default).length = n
  rw [length_fillVal, length_alloc]

theorem WF_copyAssign {v : SimpleVector α} (h : WF v) (dst : SimpleVector α) :
    WF (copyAssign dst v) := by
  obtain ⟨h1, h2⟩ := h
  refine ⟨?_, h2⟩
  show (copyInto v.items (alloc α v.capacity) 0 v.size 0).length = v.capacity
  rw [length_copyInto, length_alloc]

theorem WF_moveAssign {v : SimpleVector α} (h : WF v) (dst : SimpleVector α) :
    WF (moveAssign dst v).1 ∧ WF (moveAssign dst v).2 :=
  ⟨h, WF_mk0⟩

theorem WF_swap {a b : SimpleVector α} (ha : WF a) (hb : WF b) :
    WF (swap a b).1 ∧ WF (swap a b).2 :=
  ⟨hb, ha⟩

/-! ### The comparison algorithms -/

theorem stdEqual_iff [DecidableEq α] (as bs : List α) :
    stdEqual as bs = true ↔ as = bs := by
  induction as generalizing bs with
  | nil =>
    cases bs with
    | nil => simp [stdEqual]
    | cons b bs => simp [stdEqual]
  | cons a as ih =>
    cases bs with
    | nil => simp [stdEqual]
    | cons b bs => simp [stdEqual, ih]

theorem lexLt_iff [LinearOrder α] (as bs : List α) :
    lexLt as bs = true ↔ List.Lex (· < ·) as bs := by
  induction as generalizing bs with
  | nil =>
    cases bs with
    | nil =>
      constructor
      · intro h
        simp [lexLt] at h
      · intro h
        cases h
    | cons b bs =>
      constructor
      · intro _
        exact List.Lex.nil
      · intro _
        rfl
  | cons a as ih =>
    cases bs with
    | nil =>
      constructor
      · intro h
        simp [lexLt] at h
      · intro h
        cases h
    | cons b bs =>
      show (if a < b then true else if b < a then false else lexLt as bs) = true ↔ _
      by_cases hab : a < b
      · rw [if_pos hab]
        constructor
        · intro _
          exact List.Lex.rel hab
        · intro _
          rfl
      · rw [if_neg hab]
        by_cases hba : b < a
        · rw [if_pos hba]
          constructor
          · intro h
            simp at h
          · intro h
            cases h with
            | cons h' => exact absurd hba (lt_irrefl a)
            | rel h' => exact absurd h' hab
        · rw [if_neg hba]
          have hex : a = b := le_antisymm (not_lt.mp hba) (not_lt.mp hab)
          subst hex
          rw [ih]
          constructor
          · intro h
            exact List.Lex.cons h
          · intro h
            cases h with
            | cons h' => exact h'
            | rel h' => exact absurd h' (lt_irrefl a)

/-! ### Allocation-failure behaviour -/

theorem ReserveE_fail {a : Nat → Bool} {v : SimpleVector α} {n : Nat}
    (hres : v.capacity < n) (han : a n = false) :
    ReserveE a v n = (true, v) := by
  unfold ReserveE
  rw [if_pos hres, han]
  simp

theorem PushBackE_fail {a : Nat → Bool} {v : SimpleVector α} (x : α)
    (hfull : v.size = v.capacity) (hag : a (growTarget v.capacity) = false) :
    PushBackE a v x = (true, v) := by
  unfold PushBackE
  have hr := ReserveE_fail (lt_growTarget v.capacity) hag
  rw [if_pos (by simp [hfull] : (v.size == v.capacity) = true), hr]
  rfl

theorem InsertE_fail {a : Nat → Bool} {v : SimpleVector α} (i : Nat) (x : α)
    (hfull : v.size = v.capacity) (hag : a (growTarget v.capacity) = false) :
    InsertE a v i x = (true, v) := by
  unfold InsertE
  have hr := ReserveE_fail (lt_growTarget v.capacity) hag
  rw [if_pos (by simp [hfull] : (v.size == v.capacity) = true), hr]
  rfl

theorem ResizeE_fail {a : Nat → Bool} {v : SimpleVector α} {m : Nat}
    (hm1 : v.size < m) (hm2 : v.capacity < m) (ham : a m = false) :
    ResizeE a v m = (true, v) := by
  unfold ResizeE
  rw [if_neg (by omega : ¬ m ≤ v.size)]
  have hr := ReserveE_fail hm2 ham
  rw [if_pos hm2, hr]
  rfl

/-! ### Sequences of appends -/

/-- A sequence of `PushBack` calls, one per element of `xs` in order. -/
def pushAll (v : SimpleVector α) (xs : List α) : SimpleVector α :=
  xs.foldl PushBack v

theorem pushAll_size (xs : List α) : ∀ v : SimpleVector α,
    (pushAll v xs).size = v.size + xs.length := by
  induction xs with
  | nil =>
    intro v
    simp [pushAll]
  | cons x xs ih =>
    intro v
    show (pushAll (PushBack v x) xs).size = v.size + (xs.length + 1)
    rw [ih, PushBack_size]
    omega

/-! ## The claims -/

/-- C1: for every vector and every insertion position `p ∈ [0, size]`,
`Insert(p, v)` grows capacity first exactly when `size = capacity` (per the
growth policy), shifts every element at or after `p` one slot toward the end
preserving their order, places the value at position `p`, increments the size
by one, and returns an iterator to the inserted element (position `p`). -/
theorem spec_c1 (v : SimpleVector α) (p : Nat) (x : α) (h : WF v) (hp : p ≤ v.size) :
    (Insert v p x).1.size = v.size + 1 ∧
    (Insert v p x).2 = p ∧
    elems (Insert v p x).1 = (elems v).take p ++ x :: (elems v).drop p ∧
    (Insert v p x).1.capacity =
      (if v.size = v.capacity then growTarget v.capacity else v.capacity) :=
  ⟨Insert_size v p x, Insert_snd v p x, elems_Insert h hp x, Insert_capacity v p x⟩

theorem spec_c1_witness :
    WF (⟨[1, 2, 3], 3, 3⟩ : SimpleVector Nat) ∧
    elems (Insert (⟨[1, 2, 3], 3, 3⟩ : SimpleVector Nat) 1 10).1 = [1, 10, 2, 3] := by
  constructor
  · decide
  · have h := (spec_c1 (⟨[1, 2, 3], 3, 3⟩ : SimpleVector Nat) 1 10
      (by decide) (by decide)).2.2.1
    rw [h]
    decide

/-- C2: for every vector, an implicit growth (`PushBack`/`Insert` called
with `size = capacity`) sets the capacity to exactly `max(1, capacity * 2)`,
whereas for every vector an explicit `Reserve(n)` with `n > capacity`, or a
`Resize(m)` that must grow (`m > capacity`), sets the capacity to exactly
the requested amount, never applying the doubling multiplier. -/
theorem spec_c2 :
    (∀ (v : SimpleVector α) (x : α), v.size = v.capacity →
       (PushBack v x).capacity = max 1 (v.capacity * 2)) ∧
    (∀ (v : SimpleVector α) (i : Nat) (x : α), v.size = v.capacity →
       (Insert v i x).1.capacity = max 1 (v.capacity * 2)) ∧
    (∀ (v : SimpleVector α) (n : Nat), v.capacity < n →
       (Reserve v n).capacity = n) ∧
    (∀ (v : SimpleVector α) (m : Nat), WF v → v.capacity < m →
       (Resize v m).capacity = m) := by
  refine ⟨?_, ?_, ?_, ?_⟩
  · intro v x hfull
    rw [PushBack_capacity, if_pos hfull, growTarget_eq_max]
  · intro v i x hfull
    rw [Insert_capacity, if_pos hfull, growTarget_eq_max]
  · intro v n hn
    exact Reserve_capacity_of_gt hn
  · intro v m h hm
    rw [Resize_capacity h, if_pos hm]

theorem spec_c2_witness :
    (PushBack (⟨[1], 1, 1⟩ : SimpleVector Nat) 5).capacity = 2 ∧
    (Insert (⟨[1], 1, 1⟩ : SimpleVector Nat) 0 5).1.capacity = 2 ∧
    (Reserve (⟨[1, 2, 0], 1, 3⟩ : SimpleVector Nat) 5).capacity = 5 ∧
    (Resize (⟨[1, 2, 0], 1, 3⟩ : SimpleVector Nat) 7).capacity = 7 := by
  obtain ⟨hp, hi, hr, hz⟩ := spec_c2 (α := Nat)
  refine ⟨?_, ?_, ?_, ?_⟩
  · rw [hp (⟨[1], 1, 1⟩ : SimpleVector Nat) 5 (by decide)]
    decide
  · rw [hi (⟨[1], 1, 1⟩ : SimpleVector Nat) 0 5 (by decide)]
    decide
  · exact hr (⟨[1, 2, 0], 1, 3⟩ : SimpleVector Nat) 5 (by decide)
  · exact hz (⟨[1, 2, 0], 1, 3⟩ : SimpleVector Nat) 7 (by decide) (by decide)

/-- C3: for every vector and every position `p ∈ [0, size]`, `Insert(p, v)`
followed by `Erase` at the iterator the insert returned restores the
element sequence and the size to their pre-insert values. -/
theorem spec_c3 (v : SimpleVector α) (p : Nat) (x : α) (h : WF v) (hp : p ≤ v.size) :
    elems (Erase (Insert v p x).1 (Insert v p x).2).1 = elems v ∧
    (Erase (Insert v p x).1 (Insert v p x).2).1.size = v.size := by
  have hu : WF (Insert v p x).1 := WF_Insert h p x
  have hus : (Insert v p x).1.size = v.size + 1 := Insert_size v p x
  have hue : elems (Insert v p x).1 = (elems v).take p ++ x :: (elems v).drop p :=
    elems_Insert h hp x
  have hlen_take : ((elems v).take p).length = p := by
    rw [List.length_take, length_elems h]
    omega
  rw [Insert_snd]
  constructor
  · rw [elems_Erase hu (by omega), hue]
    rw [List.take_left' hlen_take]
    have hdrop : ∀ (A B : List α) (y : α), A.length = p →
        (A ++ y :: B).drop (p + 1) = B := by
      intro A B y hA
      subst hA
      simp [List.drop_append]
    rw [hdrop _ _ _ hlen_take, List.take_append_drop]
  · rw [Erase_size, hus]
    omega

theorem spec_c3_witness :
    WF (⟨[1, 2, 3], 3, 3⟩ : SimpleVector Nat) ∧
    elems (Erase (Insert (⟨[1, 2, 3], 3, 3⟩ : SimpleVector Nat) 1 9).1
      (Insert (⟨[1, 2, 3], 3, 3⟩ : SimpleVector Nat) 1 9).2).1 = [1, 2, 3] := by
  constructor
  · decide
  · have h := (spec_c3 (⟨[1, 2, 3], 3, 3⟩ : SimpleVector Nat) 1 9
      (by decide) (by decide)).1
    rw [h]
    decide

/-- C4: `Resize(n)` with `n ≤ size` only shrinks the size, leaving capacity
and buffer untouched; with `m > size` it value-initialises the slots between
the old size and `m` (growing the buffer exactly to `m` first when
`m > capacity`), so shrinking to `n` and resizing back up to the old size
restores the size but leaves the regrown tail value-initialised. -/
theorem spec_c4 (v : SimpleVector α) (n m : Nat) (h : WF v)
    (hn : n ≤ v.size) (hm : v.size < m) :
    Resize v n = { v with size := n } ∧
    elems (Resize v m) = elems v ++ List.replicate (m - v.size) default ∧
    (Resize v m).capacity = (if v.capacity < m then m else v.capacity) ∧
    (Resize (Resize v n) v.size).size = v.size ∧
    elems (Resize (Resize v n) v.size) =
      (elems v).take n ++ List.replicate (v.size - n) default := by
  refine ⟨Resize_shrink hn, elems_Resize_up h hm, Resize_capacity h m, Resize_size _, ?_⟩
  rw [Resize_shrink hn]
  have htn : v.items.take n = (elems v).take n := by
    show v.items.take n = (v.items.take v.size).take n
    rw [List.take_take, Nat.min_def, if_pos hn]
  by_cases hns : n = v.size
  · subst hns
    rw [Resize_shrink (Nat.le_refl _)]
    show v.items.take v.size = (elems v).take v.size ++ List.replicate (v.size - v.size) default
    rw [Nat.sub_self, List.replicate_zero, List.append_nil]
    exact htn
  · have hlt : ({ v with size := n } : SimpleVector α).size < v.size := by
      show n < v.size; omega
    have hwf : WF ({ v with size := n } : SimpleVector α) := by
      obtain ⟨h1, h2⟩ := h
      exact ⟨h1, by show n ≤ v.capacity; omega⟩
    have hup := elems_Resize_up hwf hlt
    rw [hup]
    show v.items.take n ++ List.replicate (v.size - n) default
        = (elems v).take n ++ List.replicate (v.size - n) default
    rw [htn]

theorem spec_c4_witness :
    WF (⟨[5, 6, 7, 8], 4, 4⟩ : SimpleVector Nat) ∧
    elems (Resize (Resize (⟨[5, 6, 7, 8], 4, 4⟩ : SimpleVector Nat) 2) 4) = [5, 6, 0, 0] := by
  constructor
  · decide
  · have h := (spec_c4 (⟨[5, 6, 7, 8], 4, 4⟩ : SimpleVector Nat) 2 6
      (by decide) (by decide) (by decide)).2.2.2.2
    rw [h]
    decide

/-- C5: for every vector and every capacity-changing operation (`Reserve`
with a larger capacity, a growing `Resize`, `PushBack` growth and `Insert`
growth), if the allocation of the new buffer fails, the operation
propagates the failure (`.1 = true`) and leaves the vector exactly as it
was (`.2 = v`), because the new buffer is allocated in full before any
member of the vector is written. -/
theorem spec_c5 :
    (∀ (a : Nat → Bool) (v : SimpleVector α) (n : Nat),
       v.capacity < n → a n = false → ReserveE a v n = (true, v)) ∧
    (∀ (a : Nat → Bool) (v : SimpleVector α) (x : α),
       v.size = v.capacity → a (growTarget v.capacity) = false →
       PushBackE a v x = (true, v)) ∧
    (∀ (a : Nat → Bool) (v : SimpleVector α) (i : Nat) (x : α),
       v.size = v.capacity → a (growTarget v.capacity) = false →
       InsertE a v i x = (true, v)) ∧
    (∀ (a : Nat → Bool) (v : SimpleVector α) (m : Nat),
       v.size < m → v.capacity < m → a m = false →
       ResizeE a v m = (true, v)) :=
  ⟨fun _ _ _ h1 h2 => ReserveE_fail h1 h2,
   fun _ _ x h1 h2 => PushBackE_fail x h1 h2,
   fun _ _ i x h1 h2 => InsertE_fail i x h1 h2,
   fun _ _ _ h1 h2 h3 => ResizeE_fail h1 h2 h3⟩

theorem spec_c5_witness :
    ReserveE (fun _ => false) (⟨[1, 2, 0], 1, 3⟩ : SimpleVector Nat) 5
      = (true, ⟨[1, 2, 0], 1, 3⟩) ∧
    PushBackE (fun _ => false) (mk0 : SimpleVector Nat) 0 = (true, mk0) ∧
    InsertE (fun _ => false) (mk0 : SimpleVector Nat) 0 0 = (true, mk0) ∧
    ResizeE (fun _ => false) (⟨[1, 2, 0], 1, 3⟩ : SimpleVector Nat) 7
      = (true, ⟨[1, 2, 0], 1, 3⟩) := by
  obtain ⟨hr, hp, hi, hz⟩ := spec_c5 (α := Nat)
  exact ⟨hr (fun _ => false) (⟨[1, 2, 0], 1, 3⟩ : SimpleVector Nat) 5 (by decide) (by decide),
         hp (fun _ => false) (mk0 : SimpleVector Nat) 0 (by decide) (by decide),
         hi (fun _ => false) (mk0 : SimpleVector Nat) 0 0 (by decide) (by decide),
         hz (fun _ => false) (⟨[1, 2, 0], 1, 3⟩ : SimpleVector Nat) 7
           (by decide) (by decide) (by decide)⟩

/-- C6: `At(i)` signals the out-of-range error exactly when `i ≥ size`, and
for `i < size` it returns the same element as `operator[](i)`.  (In this
embedding `At` is a pure function of the vector, which does not change it.) -/
theorem spec_c6 (v : SimpleVector α) (i : Nat) :
    (At v i = Except.error () ↔ v.size ≤ i) ∧
    (i < v.size → At v i = Except.ok (getIdx v i)) := by
  constructor
  · unfold At
    by_cases h : v.size ≤ i
    · simp [h]
    · simp [h]
  · intro h
    unfold At
    rw [if_neg (by omega : ¬ i ≥ v.size)]
    rfl

theorem spec_c6_witness :
    At (⟨[1, 2, 3], 3, 3⟩ : SimpleVector Nat) 1 = Except.ok 2 ∧
    At (⟨[1, 2, 3], 3, 3⟩ : SimpleVector Nat) 5 = Except.error () := by
  constructor
  · have h := (spec_c6 (⟨[1, 2, 3], 3, 3⟩ : SimpleVector Nat) 1).2 (by decide)
    rw [h]
    rfl
  · exact (spec_c6 (⟨[1, 2, 3], 3, 3⟩ : SimpleVector Nat) 5).1.mpr (by decide)

/-- C7: move construction, and move assignment to a distinct destination,
transfer ownership: the destination ends exactly as the source was (same
size, capacity and elements), and the source is reset to size 0 and
capacity 0.  Both are total functions: they never fail. -/
theorem spec_c7 (v dst : SimpleVector α) :
    moveCtor v = (v, mk0) ∧
    moveAssign dst v = (v, mk0) ∧
    (mk0 : SimpleVector α).size = 0 ∧
    (mk0 : SimpleVector α).capacity = 0 :=
  ⟨rfl, rfl, rfl, rfl⟩

/-- C8: `operator==` returns true exactly when the two element sequences are
equal (same length, equal corresponding elements) — a property independent
of the two capacities, as the third conjunct makes explicit for arbitrary
capacity changes via `Reserve` — and `operator<` computes the standard
lexicographical order (`List.Lex (· < ·)`) on the element sequences. -/
theorem spec_c8 [LinearOrder α] (v w : SimpleVector α) :
    (vecEq v w = true ↔ elems v = elems w) ∧
    (vecLt v w = true ↔ List.Lex (· < ·) (elems v) (elems w)) ∧
    (WF v → WF w → ∀ n m : Nat,
      vecEq (Reserve v n) (Reserve w m) = vecEq v w ∧
      vecLt (Reserve v n) (Reserve w m) = vecLt v w) := by
  refine ⟨stdEqual_iff _ _, lexLt_iff _ _, ?_⟩
  intro hv hw n m
  unfold vecEq vecLt
  rw [elems_Reserve hv n, elems_Reserve hw m]
  exact ⟨rfl, rfl⟩

theorem spec_c8_witness :
    vecEq (⟨[1, 2], 2, 2⟩ : SimpleVector Nat) ⟨[1, 2, 0], 2, 3⟩ = true ∧
    vecLt (⟨[1, 2], 2, 2⟩ : SimpleVector Nat) ⟨[1, 2, 0], 2, 3⟩
      = vecLt (Reserve (⟨[1, 2], 2, 2⟩ : SimpleVector Nat) 9)
          (Reserve (⟨[1, 2, 0], 2, 3⟩ : SimpleVector Nat) 4) := by
  constructor
  · exact (spec_c8 (⟨[1, 2], 2, 2⟩ : SimpleVector Nat) ⟨[1, 2, 0], 2, 3⟩).1.mpr (by decide)
  · exact ((spec_c8 (⟨[1, 2], 2, 2⟩ : SimpleVector Nat) ⟨[1, 2, 0], 2, 3⟩).2.2
      (by decide) (by decide) 9 4).2.symm

/-- C9: the invariant `0 ≤ size ≤ capacity` (together with the buffer
matching the capacity) holds after every public operation — default, sized,
fill, initializer-list and reserve-hint construction, copy and move
construction, copy and move assignment, `swap`, `PushBack`, `Insert`,
`Erase`, `Resize`, `Reserve`, `PopBack` and `Clear` — and a sequence of `N`
`PushBack` calls starting from a default-constructed vector ends with
size `N`. -/
theorem spec_c9 :
    WF (mk0 : SimpleVector α) ∧
    (∀ (v : SimpleVector α) (x : α), WF v → WF (PushBack v x)) ∧
    (∀ (v : SimpleVector α) (i : Nat) (x : α), WF v → WF (Insert v i x).1) ∧
    (∀ (v : SimpleVector α) (i : Nat), WF v → WF (Erase v i).1) ∧
    (∀ (v : SimpleVector α) (n : Nat), WF v → WF (Resize v n)) ∧
    (∀ (v : SimpleVector α) (n : Nat), WF v → WF (Reserve v n)) ∧
    (∀ v : SimpleVector α, WF v → WF (PopBack v)) ∧
    (∀ v : SimpleVector α, WF v → WF (Clear v)) ∧
    (∀ v : SimpleVector α, WF v → WF (copyCtor v)) ∧
    (∀ v : SimpleVector α, WF v → WF (moveCtor v).1 ∧ WF (moveCtor v).2) ∧
    (∀ n : Nat, WF (mkSized (α := α) n)) ∧
    (∀ (n : Nat) (x : α), WF (mkFill n x)) ∧
    (∀ xs : List α, WF (mkInitList xs)) ∧
    (∀ n : Nat, WF (mkReserveHint (α := α) n)) ∧
    (∀ dst v : SimpleVector α, WF v → WF (copyAssign dst v)) ∧
    (∀ dst v : SimpleVector α, WF v →
       WF (moveAssign dst v).1 ∧ WF (moveAssign dst v).2) ∧
    (∀ a b : SimpleVector α, WF a → WF b → WF (swap a b).1 ∧ WF (swap a b).2) ∧
    (∀ xs : List α, (pushAll (mk0 : SimpleVector α) xs).size = xs.length) :=
  ⟨WF_mk0,
   fun _ x h => WF_PushBack h x,
   fun _ i x h => WF_Insert h i x,
   fun _ i h => WF_Erase h i,
   fun _ n h => WF_Resize h n,
   fun _ n h => WF_Reserve h n,
   fun _ h => WF_PopBack h,
   fun _ h => WF_Clear h,
   fun _ h => WF_copyCtor h,
   fun _ h => WF_moveCtor h,
   fun n => WF_mkSized n,
   fun n x => WF_mkFill n x,
   fun xs => WF_mkInitList xs,
   fun n => WF_mkReserveHint n,
   fun dst _ h => WF_copyAssign h dst,
   fun dst _ h => WF_moveAssign h dst,
   fun _ _ ha hb => WF_swap ha hb,
   fun xs => by
     rw [pushAll_size]
     show 0 + xs.length = xs.length
     omega⟩

theorem spec_c9_witness :
    WF (PushBack (⟨[1], 1, 1⟩ : SimpleVector Nat) 2) ∧
    WF (mkSized (α := Nat) 4) ∧
    WF (swap (⟨[1], 1, 1⟩ : SimpleVector Nat) ⟨[2, 0], 1, 2⟩).1 ∧
    (pushAll (mk0 : SimpleVector Nat) [4, 5, 6]).size = 3 := by
  obtain ⟨h1, h2, h3, h4, h5, h6, h7, h8, h9, h10, h11, h12, h13, h14, h15, h16,
    h17, h18⟩ := spec_c9 (α := Nat)
  exact ⟨h2 ⟨[1], 1, 1⟩ 2 (by decide),
         h11 4,
         (h17 (⟨[1], 1, 1⟩ : SimpleVector Nat) ⟨[2, 0], 1, 2⟩ (by decide) (by decide)).1,
         h18 [4, 5, 6]⟩

/-- C10: inserting at the end (`Insert(v.end(), x)`, i.e. at index `size`)
is the same operation as `PushBack(x)`: the resulting vector states are
equal (hence also size, capacity and element sequence), and the returned
iterator is the previous end position. -/
theorem spec_c10 (v : SimpleVector α) (x : α) :
    Insert v v.size x = (PushBack v x, v.size) := by
  have hs := growIfFull_size v
  have hmb : moveBackward (growIfFull v).items v.size (growIfFull v).size
      ((growIfFull v).size + 1) = (growIfFull v).items := by
    rw [moveBackward, if_neg (by omega : ¬ v.size < (growIfFull v).size)]
  simp only [Insert, PushBack]
  rw [hmb, hs]

end SimpleVec
